import Mathlib

/-!
Verification development for the epub-translator reader.

Shallow embedding of the annotation store (`src/unnamed/part_003`,
a.k.a. `storageService.ts`; the first of the two concatenated versions
is the one the claims cite), of the reader component's bookmark toggle
and full-text search (`src/src/components/Reader.tsx`), and of the
translation manager's in-flight queue (`src/unnamed/part_004`,
`useTranslation`).

Modelling conventions:
* The browser storage tiers (localforage instances, `localStorage`
  JSON objects, `sessionStorage`) are finite maps `String → Option α`.
  A key present in a JS object/store is `some v`, absent is `none`.
* The async store functions are single-threaded in the app (event-loop
  semantics, no parallelism per spec §5), so each exported operation is
  embedded as a pure state transformer executed atomically.
* JS numbers for percentages are embedded as `ℚ`; `x.toFixed(2)`
  followed by `parseFloat` is `round2` (ECMAScript `toFixed` rounds to
  the nearest 2-decimal value, ties towards +∞, which is
  `⌊q * 100 + 1/2⌋ / 100`).  `typeof x === 'number'` is always true for
  an embedded `ℚ`.
* `Date.now()` is an explicit `now : Nat` parameter.
-/

namespace EpubReader

/-- Point update of a string-keyed map (JS `obj[k] = v` / `store.setItem`). -/
def setKey {α : Type} (m : String → Option α) (k : String) (v : α) :
    String → Option α :=
  fun k2 => if k2 = k then some v else m k2

/-- Point removal from a string-keyed map (JS `delete obj[k]` / `store.removeItem`). -/
def delKey {α : Type} (m : String → Option α) (k : String) :
    String → Option α :=
  fun k2 => if k2 = k then none else m k2

/-- `Bookmark` from `src/unnamed/part_000` (types.ts): cfi, href, text,
chapter, createdAt (optional fields `pageNumber`/`coverUrl` are never
set by the reader and are omitted). -/
structure Bookmark where
  cfi : String
  href : String
  text : String
  chapter : String
  createdAt : Nat
  deriving DecidableEq, Repr

/-- `Highlight` from types.ts: cfi, text, color, createdAt, percentage. -/
structure Highlight where
  cfi : String
  text : String
  color : String
  createdAt : Nat
  percentage : ℚ
  deriving DecidableEq, Repr

/-- The `ReadingProgress` shape actually passed around by `Reader.tsx`
and consumed by the storage service: cfi, href, percentage, lastRead,
isTranslated, location. -/
structure ReadingProgress where
  cfi : String
  href : String
  percentage : ℚ
  lastRead : Nat
  isTranslated : Bool
  location : Nat
  deriving DecidableEq, Repr

/-- `Book` metadata record (only the fields the modelled operations touch). -/
structure Book where
  id : String
  title : String
  addedAt : Nat
  deriving DecidableEq, Repr

/-- `BookLocation` from types.ts: the reader's current position. -/
structure BookLocation where
  cfi : String
  href : String
  percentage : ℚ
  location : Nat
  deriving DecidableEq, Repr

/-- The persistent state the storage service operates on.

* `bookMeta`      : localforage `bookStore` entries keyed by book id.
* `progressForage`: the `bookStore.setItem("progress_" ++ key, …)` backup
  written by `saveReadingProgress`; the constant `progress_` prefix keeps
  this key space apart from plain book ids, so it is a separate field.
* `fileData`/`coverData`/`configData`/`translationData`: the other
  localforage stores, payload irrelevant to the claims (presence only,
  except the translation state is not inspected either).
* `bookmarkCache`/`highlightCache`: localforage `bookmarkStore` /
  `highlightStore`, keyed by the literal string keys the code builds
  (`bookId ++ "_bookmarks"`, key ++ "_highlights"`).
* `bookmarksLS`/`highlightsLS`: the JSON objects stored in
  `localStorage` under `BOOKMARKS_KEY` / `HIGHLIGHTS_KEY`, keyed by the
  per-book (resp. per-variant) entry key.
* `progressLS`/`progressSS`: the `READING_PROGRESS_KEY` JSON object in
  `localStorage`, and the per-key `sessionStorage` backup (the constant
  prefix `epub_reader_progress_` of the session key is dropped). -/
structure StoreState where
  bookMeta : String → Option Book
  fileData : String → Option Unit
  coverData : String → Option Unit
  configData : String → Option Unit
  translationData : String → Option Unit
  bookmarkCache : String → Option (List Bookmark)
  bookmarksLS : String → Option (List Bookmark)
  highlightCache : String → Option (List Highlight)
  highlightsLS : String → Option (List Highlight)
  progressLS : String → Option ReadingProgress
  progressSS : String → Option ReadingProgress
  progressForage : String → Option ReadingProgress

/-- A store with nothing persisted. -/
def emptyStore : StoreState where
  bookMeta := fun _ => none
  fileData := fun _ => none
  coverData := fun _ => none
  configData := fun _ => none
  translationData := fun _ => none
  bookmarkCache := fun _ => none
  bookmarksLS := fun _ => none
  highlightCache := fun _ => none
  highlightsLS := fun _ => none
  progressLS := fun _ => none
  progressSS := fun _ => none
  progressForage := fun _ => none

/-- The per-variant storage key: `bookId` for the original view,
`` `${bookId}_translated` `` for the translated view
(used by highlights and reading progress). -/
def variantKey (bookId : String) (isTranslated : Bool) : String :=
  if isTranslated then bookId ++ "_translated" else bookId

/-! ### Bookmarks (storageService, lines 479-561)

The bookmark API is keyed by `bookId` only — it has no variant
parameter. -/

/-- `getBookmarks(bookId)`: localforage cache first (a cached empty
array is truthy in JS, hence a hit), else the `localStorage` object
(missing entry defaults to `[]`), which is then written into the cache.
Returns the list together with the (possibly cache-updated) state. -/
def getBookmarksRes (s : StoreState) (bookId : String) :
    List Bookmark × StoreState :=
  match s.bookmarkCache (bookId ++ "_bookmarks") with
  | some bs => (bs, s)
  | none =>
      let bs := (s.bookmarksLS bookId).getD []
      (bs, { s with
              bookmarkCache := setKey s.bookmarkCache (bookId ++ "_bookmarks") bs })

/-- `bookmarks[existingIndex] = bookmark` after
`findIndex(b => b.cfi === bookmark.cfi)`: replace the first entry whose
cfi matches. -/
def replaceFirstByCfi : List Bookmark → Bookmark → List Bookmark
  | [], _ => []
  | b :: bs, bm => if b.cfi = bm.cfi then bm :: bs else b :: replaceFirstByCfi bs bm

/-- `findIndex ≥ 0 ? replace : push`. -/
def upsertBookmarkList (bs : List Bookmark) (bm : Bookmark) : List Bookmark :=
  if bs.any (fun b => b.cfi = bm.cfi) then replaceFirstByCfi bs bm else bs ++ [bm]

/-- `saveBookmark(bookId, bookmark)`: read (caching), upsert by cfi,
write the new list to both the localforage cache and the
`localStorage` object entry for this book. -/
def saveBookmark (s : StoreState) (bookId : String) (bm : Bookmark) : StoreState :=
  let r := getBookmarksRes s bookId
  let bs := upsertBookmarkList r.1 bm
  { r.2 with
    bookmarkCache := setKey r.2.bookmarkCache (bookId ++ "_bookmarks") bs
    bookmarksLS := setKey r.2.bookmarksLS bookId bs }

/-- `removeBookmark(bookId, cfi)`: read (caching), drop every entry with
this cfi, write the filtered list to both tiers. -/
def removeBookmark (s : StoreState) (bookId : String) (cfi : String) : StoreState :=
  let r := getBookmarksRes s bookId
  let bs := r.1.filter (fun b => b.cfi ≠ cfi)
  { r.2 with
    bookmarkCache := setKey r.2.bookmarkCache (bookId ++ "_bookmarks") bs
    bookmarksLS := setKey r.2.bookmarksLS bookId bs }

/-- `removeAllBookmarksForBook(bookId)`: remove the cache entry and
delete the book's entry from the `localStorage` object. -/
def removeAllBookmarksForBook (s : StoreState) (bookId : String) : StoreState :=
  { s with
    bookmarkCache := delKey s.bookmarkCache (bookId ++ "_bookmarks")
    bookmarksLS := delKey s.bookmarksLS bookId }

/-- The percentage-based label `Reader.tsx` synthesizes:
`` `Page ${location.percentage}%` ``. -/
def pageLabel (p : ℚ) : String := "Page " ++ toString p ++ "%"

/-- The bookmark object built by `addBookmark` in `Reader.tsx`
(lines 617-623). -/
def newBookmark (loc : BookLocation) (chapter : String) (now : Nat) : Bookmark :=
  { cfi := loc.cfi, href := loc.href, text := pageLabel loc.percentage
    chapter := chapter, createdAt := now }

/-- `addBookmark` from `Reader.tsx` (lines 606-632): the bookmark
toggle.  `isCurrentPageBookmarked` mirrors the loaded bookmark list
(`checkIfCurrentPageBookmarked`: `bookmarks.some(b => b.cfi === cfi)`),
so the branch condition is embedded as that predicate over the
persisted list.  If bookmarked, `removeBookmark`; otherwise
`saveBookmark` with a freshly synthesized bookmark. -/
def addBookmark (s : StoreState) (bookId : String) (loc : BookLocation)
    (chapter : String) (now : Nat) : StoreState :=
  let bs := (getBookmarksRes s bookId).1
  if bs.any (fun b => b.cfi = loc.cfi) then
    removeBookmark s bookId loc.cfi
  else
    saveBookmark s bookId (newBookmark loc chapter now)

/-- The bookmark list an immediately following read observes. -/
def readBookmarks (s : StoreState) (bookId : String) : List Bookmark :=
  (getBookmarksRes s bookId).1

/-! ### Highlights (storageService, lines 564-657)

The highlight API takes an `isTranslated` flag and stores the two
variants under the keys `bookId` and `` `${bookId}_translated` ``. -/

/-- JS `x || 0` on an embedded number: `0` is falsy, anything else truthy. -/
def jsOr0 (q : ℚ) : ℚ := if q = 0 then 0 else q

/-- `getHighlights(bookId, isTranslated)`: cache first; else the
`localStorage` object entry under the variant key, with each record's
`percentage` defaulted through `h.percentage || 0`, then cached. -/
def getHighlightsRes (s : StoreState) (bookId : String) (isTranslated : Bool) :
    List Highlight × StoreState :=
  let key := variantKey bookId isTranslated
  match s.highlightCache (key ++ "_highlights") with
  | some hs => (hs, s)
  | none =>
      let hs := ((s.highlightsLS key).getD []).map
        (fun h => { h with percentage := jsOr0 h.percentage })
      (hs, { s with
              highlightCache := setKey s.highlightCache (key ++ "_highlights") hs })

/-- First-match replacement for highlights (`findIndex` + assignment). -/
def replaceFirstHighlight : List Highlight → Highlight → List Highlight
  | [], _ => []
  | h :: hs, hl => if h.cfi = hl.cfi then hl :: hs else h :: replaceFirstHighlight hs hl

/-- `findIndex ≥ 0 ? replace : push` for highlights. -/
def upsertHighlightList (hs : List Highlight) (hl : Highlight) : List Highlight :=
  if hs.any (fun h => h.cfi = hl.cfi) then replaceFirstHighlight hs hl else hs ++ [hl]

/-- `saveHighlight(bookId, highlight, isTranslated)`. -/
def saveHighlight (s : StoreState) (bookId : String) (hl : Highlight)
    (isTranslated : Bool) : StoreState :=
  let key := variantKey bookId isTranslated
  let r := getHighlightsRes s bookId isTranslated
  let hs := upsertHighlightList r.1 hl
  { r.2 with
    highlightCache := setKey r.2.highlightCache (key ++ "_highlights") hs
    highlightsLS := setKey r.2.highlightsLS key hs }

/-- `removeHighlight(bookId, cfi, isTranslated)`. -/
def removeHighlight (s : StoreState) (bookId : String) (cfi : String)
    (isTranslated : Bool) : StoreState :=
  let key := variantKey bookId isTranslated
  let r := getHighlightsRes s bookId isTranslated
  let hs := r.1.filter (fun h => h.cfi ≠ cfi)
  { r.2 with
    highlightCache := setKey r.2.highlightCache (key ++ "_highlights") hs
    highlightsLS := setKey r.2.highlightsLS key hs }

/-- `removeAllHighlightsForBook(bookId)`: removes the cache entries
`` `${bookId}_highlights` `` and `` `${bookId}_translated_highlights` ``
and both `localStorage` object entries. -/
def removeAllHighlightsForBook (s : StoreState) (bookId : String) : StoreState :=
  { s with
    highlightCache :=
      delKey (delKey s.highlightCache (bookId ++ "_highlights"))
        (bookId ++ "_translated_highlights")
    highlightsLS :=
      delKey (delKey s.highlightsLS bookId) (bookId ++ "_translated") }

/-- The highlight list an immediately following read observes. -/
def readHighlights (s : StoreState) (bookId : String) (isTranslated : Bool) :
    List Highlight :=
  (getHighlightsRes s bookId isTranslated).1

/-! ### Reading progress (storageService, lines 679-798) -/

/-- `parseFloat(x.toFixed(2))`: round to the nearest multiple of 1/100,
ties towards +∞ (the ECMAScript `toFixed` tie rule "pick the larger n").
Written with `Rat.floor` so that it evaluates by kernel reduction. -/
def round2 (q : ℚ) : ℚ := ((q * 100 + 1 / 2).floor : ℚ) / 100

/-- `Math.min(a, b)`. -/
def jsMin (a b : ℚ) : ℚ := if a ≤ b then a else b

/-- `Math.max(a, b)`. -/
def jsMax (a b : ℚ) : ℚ := if b ≤ a then a else b

/-- `Math.max(0, Math.min(100, x))`. -/
def clamp0100 (q : ℚ) : ℚ := jsMax 0 (jsMin 100 q)

/-- The `validatedProgress` object built inside `saveReadingProgress`
(lines 688-695): caller's record with `lastRead` restamped from
`Date.now()`, percentage clamped to `[0,100]` after 2-decimal rounding,
and `location || 0` (identity on an embedded `Nat`). -/
def validateProgress (pr : ReadingProgress) (now : Nat) : ReadingProgress :=
  { pr with
    lastRead := now
    percentage := clamp0100 (round2 pr.percentage) }

/-- `saveReadingProgress(bookId, progress)` (lines 679-722): rejects
(returns, persisting nothing) when `progress.cfi` is falsy — the
`typeof progress.percentage !== 'number'` disjunct cannot fire for an
embedded `ℚ` — and otherwise writes the validated record under the
variant key to `localStorage`, to the `sessionStorage` backup, and to
the localforage `bookStore` backup (`progress_` prefix). -/
def saveReadingProgress (s : StoreState) (bookId : String)
    (pr : ReadingProgress) (now : Nat) : StoreState :=
  if pr.cfi = "" then s
  else
    let key := variantKey bookId pr.isTranslated
    let vp := validateProgress pr now
    { s with
      progressLS := setKey s.progressLS key vp
      progressSS := setKey s.progressSS key vp
      progressForage := setKey s.progressForage key vp }

/-- JS truthiness of `progress?.cfi`. -/
def truthyCfi : Option ReadingProgress → Bool
  | some p => p.cfi ≠ ""
  | none => false

/-- The record `getReadingProgress` returns (lines 760-767):
`href || ''` and `location || 0` are identities on the embedding,
`lastRead || Date.now()` maps a zero timestamp to `now`,
`!!progress.isTranslated` is the identity on `Bool`. -/
def validateOut (p : ReadingProgress) (now : Nat) : ReadingProgress :=
  { cfi := p.cfi
    href := p.href
    percentage := round2 p.percentage
    lastRead := if p.lastRead = 0 then now else p.lastRead
    isTranslated := p.isTranslated
    location := p.location }

/-- `getReadingProgress(bookId, isTranslated)` (lines 724-776).

Synchronous value: the `localStorage` record if its cfi is truthy, else
the `sessionStorage` backup if its cfi is truthy, else `null` — the
localforage fallback is read inside a `.then` callback that cannot run
before the function returns, so it never contributes to the returned
value.

State effect: when both synchronous tiers miss, that callback (which
runs once the promise settles, before any later call in our
single-threaded model) copies any `bookStore` backup record (`if
(forageProgress)` — any object is truthy) back into the `localStorage`
object. -/
def getReadingProgress (s : StoreState) (bookId : String) (isTranslated : Bool)
    (now : Nat) : Option ReadingProgress × StoreState :=
  let key := variantKey bookId isTranslated
  let p0 := s.progressLS key
  let p1 :=
    if truthyCfi p0 then p0
    else
      match s.progressSS key with
      | some sp => if sp.cfi ≠ "" then some sp else p0
      | none => p0
  let res :=
    match p1 with
    | some p => if p.cfi ≠ "" then some (validateOut p now) else none
    | none => none
  let s2 :=
    if truthyCfi p1 then s
    else
      match s.progressForage key with
      | some fp => { s with progressLS := setKey s.progressLS key fp }
      | none => s
  (res, s2)

/-- `removeReadingProgress(bookId)` (lines 778-798): deletes both
variant entries from the `localStorage` object and both `sessionStorage`
backups.  The localforage `bookStore` backup (`progress_` keys) is not
touched by this function. -/
def removeReadingProgress (s : StoreState) (bookId : String) : StoreState :=
  { s with
    progressLS := delKey (delKey s.progressLS bookId) (bookId ++ "_translated")
    progressSS := delKey (delKey s.progressSS bookId) (bookId ++ "_translated") }

/-! ### deleteBook (storageService, lines 283-299) -/

/-- `deleteBook(id)`: removes the book record, raw file, cover, config
and translation state, and cascades through
`removeAllBookmarksForBook`, `removeAllHighlightsForBook` and
`removeReadingProgress`.  `bookStore.removeItem(id)` removes only the
metadata key `id`; the `progress_` backup keys written by
`saveReadingProgress` into the same store are not part of the cascade. -/
def deleteBook (s : StoreState) (id : String) : StoreState :=
  let s1 :=
    { s with
      bookMeta := delKey s.bookMeta id
      fileData := delKey s.fileData id
      coverData := delKey s.coverData id
      configData := delKey s.configData (id ++ "_config")
      translationData := delKey s.translationData (id ++ "_translation") }
  removeReadingProgress
    (removeAllHighlightsForBook (removeAllBookmarksForBook s1 id) id) id

/-! ### Full-text search (`handleSearch`, Reader.tsx lines 779-845)

Section texts and the query are embedded as lists of UTF-16 code
units (`List Nat`).  `toLowerCase` is modelled on the ASCII letters
(the only case mapping the claims exercise) and `trim` on the four
core whitespace code units. -/

/-- `toLowerCase` on one code unit (ASCII fragment: `A`-`Z` shift by 32). -/
def toLowerCode (n : Nat) : Nat := if 65 ≤ n ∧ n ≤ 90 then n + 32 else n

/-- Whitespace test used by `trim` (space, tab, LF, CR). -/
def isSpaceCode (n : Nat) : Bool := n = 32 || n = 9 || n = 10 || n = 13

/-- `s.toLowerCase()`. -/
def lowerStr (t : List Nat) : List Nat := t.map toLowerCode

/-- `s.trim()`: strip whitespace from both ends. -/
def trimStr (t : List Nat) : List Nat :=
  ((t.dropWhile isSpaceCode).reverse.dropWhile isSpaceCode).reverse

/-- `s.slice(a, b)`. -/
def sliceStr (t : List Nat) (a b : Nat) : List Nat := (t.drop a).take (b - a)

/-- Does `q` occur in `t` starting at index `i`?  (`indexOf` match test.) -/
def matchAt (t q : List Nat) (i : Nat) : Bool :=
  decide ((t.drop i).take q.length = q)

/-- All match positions, in ascending order: the `while` loop
`index = normalizedText.indexOf(normalizedQuery, index + 1)` visits
exactly the positions where the query matches, smallest first. -/
def occPositions (t q : List Nat) : List Nat :=
  (List.range t.length).filter (fun i => matchAt t q i)

/-- `text.slice(Math.max(0, i - 100), Math.min(text.length, i + q.length + 100)).trim()`
(`Nat` subtraction is the `Math.max(0, ·)`). -/
def excerptAt (t : List Nat) (qlen i : Nat) : List Nat :=
  trimStr (sliceStr t (i - 100) (min t.length (i + qlen + 100)))

/-- One entry of `allResults`. -/
structure SearchHit where
  cfi : String
  excerpt : List Nat
  percentage : ℚ
  deriving DecidableEq, Repr

/-- The hits one spine item contributes, in scan order.  `cfiFromRange`
and `locations.percentageFromCfi` are the document engine's functions,
passed in as `cfiOf` (section index × match index → cfi) and `pctOf`;
a falsy (empty) cfi drops the occurrence (`if (cfi)`). -/
def sectionHits (cfiOf : Nat → Nat → String) (pctOf : String → ℚ)
    (nq : List Nat) (si : Nat) (t : List Nat) : List SearchHit :=
  (occPositions (lowerStr t) nq).filterMap (fun i =>
    let cfi := cfiOf si i
    if cfi = "" then none
    else some { cfi := cfi, excerpt := excerptAt t nq.length i, percentage := pctOf cfi })

/-- The `for (let item of spineItems)` loop, with the section index made
explicit. -/
def collectHits (cfiOf : Nat → Nat → String) (pctOf : String → ℚ)
    (nq : List Nat) : Nat → List (List Nat) → List SearchHit
  | _, [] => []
  | si, t :: rest => sectionHits cfiOf pctOf nq si t ++ collectHits cfiOf pctOf nq (si + 1) rest

/-- `(a.percentage || 0) - (b.percentage || 0)` as a ≤-test. -/
def hitLe (a b : SearchHit) : Prop := jsOr0 a.percentage ≤ jsOr0 b.percentage

instance : DecidableRel hitLe := fun a b =>
  inferInstanceAs (Decidable (jsOr0 a.percentage ≤ jsOr0 b.percentage))

instance : IsTotal SearchHit hitLe :=
  ⟨fun x y => le_total (jsOr0 x.percentage) (jsOr0 y.percentage)⟩

instance : IsTrans SearchHit hitLe := ⟨fun _ _ _ => le_trans⟩

/-- `allResults.sort((a, b) => (a.percentage || 0) - (b.percentage || 0))`:
a stable sort by percentage (modelled by insertion sort, which realizes
the ECMAScript sort postcondition: sorted and stable). -/
def sortHits (l : List SearchHit) : List SearchHit := l.insertionSort hitLe

/-- The body of `handleSearch` after the guards: normalize the query
(trim, then lowercase), scan every section, sort by percentage. -/
def handleSearchCompute (cfiOf : Nat → Nat → String) (pctOf : String → ℚ)
    (sections : List (List Nat)) (query : List Nat) : List SearchHit :=
  let nq := lowerStr (trimStr query)
  sortHits (collectHits cfiOf pctOf nq 0 sections)

/-- `handleSearch` including its guards, as a transformer of the
`searchResults` state:
* `if (!book || !searchQuery.trim()) return;` — an empty/whitespace
  query returns before `setSearchResults([])`, leaving the previous
  result list in place;
* `setSearchResults([])`, then the location-index build inside the
  `try` — if `locations.generate` fails (`indexOk = false`) the `catch`
  only logs, so the cleared (empty) list stays;
* otherwise the computed, sorted results are stored.
The function is total: no path throws to the caller. -/
def handleSearch (prev : List SearchHit) (indexOk : Bool)
    (cfiOf : Nat → Nat → String) (pctOf : String → ℚ)
    (sections : List (List Nat)) (query : List Nat) : List SearchHit :=
  if trimStr query = [] then prev
  else if indexOk then handleSearchCompute cfiOf pctOf sections query
  else []

/-! ### Translation manager queue (`useTranslation`, part_004 lines 70-135)

`translateContent` keys a request by `cfi || content`, drops the call
(returning the untranslated content) when the key is already in
`translationQueue`, adds the key before awaiting the service and
deletes it in the `finally`.  The manager is embedded as a state
machine: a `start` event is a `translateContent` invocation that
passed the content/language guards and reached the queue check; a
`finish` event is the settling (success, failure or abort) of an
issued call, running the `finally`. -/

inductive TransEvent where
  | start (key : String)
  | finish (key : String)
  deriving DecidableEq, Repr

/-- `queue` is the `translationQueue` `Set`; `inFlight` records the
keys of issued, not yet settled, external translation requests. -/
structure TransState where
  queue : List String
  inFlight : List String
  deriving DecidableEq, Repr

def TransState.init : TransState := ⟨[], []⟩

/-- One step: a `start` for a queued key is dropped (no state change,
no issued request); a `start` for a fresh key adds it to the queue and
issues a request; a `finish` runs the `finally` (delete from the queue)
and retires the request. -/
def transStep (s : TransState) : TransEvent → TransState
  | .start k => if k ∈ s.queue then s else ⟨k :: s.queue, k :: s.inFlight⟩
  | .finish k => ⟨s.queue.erase k, s.inFlight.erase k⟩

/-- The immediate result of a `start` on a queued key: the original
content, returned without touching the service (`return content`). -/
def duplicateStartResult (s : TransState) (k content : String) : Option String :=
  if k ∈ s.queue then some content else none

/-- Run a trace of events from the initial state. -/
def transRun (evs : List TransEvent) : TransState :=
  evs.foldl transStep TransState.init

/-! ### Mutation sequences on one highlight partition (for the
variant-isolation property) -/

/-- A highlight mutation: the two write operations the store exposes. -/
inductive HighlightMut where
  | save (h : Highlight)
  | remove (cfi : String)
  deriving Repr

/-- Apply one highlight mutation to the partition `(bookId, isTranslated)`. -/
def applyHighlightMut (bookId : String) (isTranslated : Bool)
    (s : StoreState) : HighlightMut → StoreState
  | .save h => saveHighlight s bookId h isTranslated
  | .remove c => removeHighlight s bookId c isTranslated

/-- Apply a sequence of highlight mutations to one partition. -/
def applyHighlightMuts (bookId : String) (isTranslated : Bool)
    (ms : List HighlightMut) (s : StoreState) : StoreState :=
  ms.foldl (applyHighlightMut bookId isTranslated) s

/-- The double bookmark toggle at one position. -/
def toggleBookmarkTwice (s : StoreState) (bookId : String) (loc : BookLocation)
    (chapter : String) (n1 n2 : Nat) : StoreState :=
  addBookmark (addBookmark s bookId loc chapter n1) bookId loc chapter n2

/-- `m` occurs contiguously inside `l` ("the excerpt contains the query"). -/
def SubSeg {α : Type} (m l : List α) : Prop := ∃ p s, l = p ++ m ++ s

/-- Total number of (possibly overlapping) case-insensitive occurrence
positions of the normalized query across the document's section texts. -/
def countOccTotal (sections : List (List Nat)) (nq : List Nat) : Nat :=
  (sections.map (fun t => (occPositions (lowerStr t) nq).length)).sum

/-! ## Helper lemmas -/

theorem append_right_ne {a b : String} (h : a ≠ b) (sfx : String) :
    a ++ sfx ≠ b ++ sfx := by
  intro heq
  apply h
  have h2 : a.data ++ sfx.data = b.data ++ sfx.data := by
    have h3 := congrArg String.data heq
    simpa using h3
  exact congrArg String.mk (List.append_cancel_right h2)

theorem self_ne_append_translated (b : String) : b ≠ b ++ "_translated" := by
  intro h
  have h2 := congrArg String.length h
  rw [String.length_append] at h2
  have h3 : "_translated".length = 11 := rfl
  omega

theorem variantKey_flip_ne (b : String) (v : Bool) :
    variantKey b v ≠ variantKey b (!v) := by
  cases v
  · simpa [variantKey] using self_ne_append_translated b
  · simpa [variantKey] using (self_ne_append_translated b).symm

theorem readBookmarks_eq (s : StoreState) (b : String) :
    readBookmarks s b =
      (s.bookmarkCache (b ++ "_bookmarks")).getD ((s.bookmarksLS b).getD []) := by
  unfold readBookmarks getBookmarksRes
  cases h : s.bookmarkCache (b ++ "_bookmarks") <;> simp [h]

theorem readBookmarks_saveBookmark (s : StoreState) (b : String) (bm : Bookmark) :
    readBookmarks (saveBookmark s b bm) b =
      upsertBookmarkList (readBookmarks s b) bm := by
  unfold saveBookmark getBookmarksRes
  cases h : s.bookmarkCache (b ++ "_bookmarks") <;>
    simp [h, readBookmarks_eq, setKey, readBookmarks, getBookmarksRes]

theorem readBookmarks_removeBookmark (s : StoreState) (b cfi : String) :
    readBookmarks (removeBookmark s b cfi) b =
      (readBookmarks s b).filter (fun bm => bm.cfi ≠ cfi) := by
  unfold removeBookmark getBookmarksRes
  cases h : s.bookmarkCache (b ++ "_bookmarks") <;>
    simp [h, readBookmarks_eq, setKey, readBookmarks, getBookmarksRes]

theorem addBookmark_eq (s : StoreState) (b : String) (loc : BookLocation)
    (ch : String) (n : Nat) :
    addBookmark s b loc ch n =
      if (readBookmarks s b).any (fun bm => bm.cfi = loc.cfi) then
        removeBookmark s b loc.cfi
      else saveBookmark s b (newBookmark loc ch n) := rfl

theorem filter_ne_of_not_any (L : List Bookmark) (c : String)
    (h : L.any (fun b => b.cfi = c) = false) :
    L.filter (fun b => b.cfi ≠ c) = L := by
  induction L with
  | nil => rfl
  | cons b L ih =>
      simp only [List.any_cons, Bool.or_eq_false_iff] at h
      simp only [List.filter_cons]
      rw [ih h.2]
      simp [h.1]

theorem filter_length_of_any (L : List Bookmark) (c : String)
    (hnd : (L.map Bookmark.cfi).Nodup)
    (h : L.any (fun b => b.cfi = c) = true) :
    (L.filter (fun b => b.cfi ≠ c)).length + 1 = L.length := by
  induction L with
  | nil => simp at h
  | cons b L ih =>
      simp only [List.map_cons, List.nodup_cons] at hnd
      by_cases hb : b.cfi = c
      · have hrest : L.any (fun x => x.cfi = c) = false := by
          rw [List.any_eq_false]
          intro x hx
          simp only [decide_eq_true_eq]
          intro hxc
          exact hnd.1 (by rw [← hb] at hxc; exact hxc ▸ List.mem_map_of_mem Bookmark.cfi hx)
        simp only [List.filter_cons]
        rw [filter_ne_of_not_any L c hrest]
        simp [hb]
      · simp only [List.any_cons, Bool.or_eq_true] at h
        rcases h with h | h
        · exact absurd (of_decide_eq_true h) hb
        · simp only [List.filter_cons]
          have := ih hnd.2 h
          simp only [decide_eq_true_eq] at *
          rw [if_pos (by exact hb)]
          simp only [List.length_cons]
          omega

theorem filter_cfi_perm (L : List Bookmark) (c : String)
    (hnd : (L.map Bookmark.cfi).Nodup)
    (h : L.any (fun b => b.cfi = c) = true) :
    ((L.filter (fun b => b.cfi ≠ c)).map Bookmark.cfi ++ [c]).Perm
      (L.map Bookmark.cfi) := by
  induction L with
  | nil => simp at h
  | cons b L ih =>
      simp only [List.map_cons, List.nodup_cons] at hnd
      by_cases hb : b.cfi = c
      · have hrest : L.any (fun x => x.cfi = c) = false := by
          rw [List.any_eq_false]
          intro x hx
          simp only [decide_eq_true_eq]
          intro hxc
          exact hnd.1 (by rw [← hb] at hxc; exact hxc ▸ List.mem_map_of_mem Bookmark.cfi hx)
        simp only [List.filter_cons]
        rw [filter_ne_of_not_any L c hrest]
        simp only [hb, decide_not, decide_eq_true_eq]
        rw [if_neg (by simp [hb])]
        calc (L.map Bookmark.cfi ++ [c]).Perm (c :: L.map Bookmark.cfi) :=
              List.perm_append_singleton c (L.map Bookmark.cfi)
          _ = (b.cfi :: L.map Bookmark.cfi) := by rw [hb]
      · simp only [List.any_cons, Bool.or_eq_true] at h
        rcases h with h | h
        · exact absurd (of_decide_eq_true h) hb
        · simp only [List.filter_cons]
          rw [if_pos (by simp [hb])]
          simp only [List.map_cons, List.cons_append]
          exact (ih hnd.2 h).cons b.cfi

theorem upsert_not_any (L : List Bookmark) (bm : Bookmark)
    (h : L.any (fun b => b.cfi = bm.cfi) = false) :
    upsertBookmarkList L bm = L ++ [bm] := by
  unfold upsertBookmarkList
  rw [h]
  rfl

/-! ## C10: bookmark writes only touch their own book's entry -/

/-- C10: saving or removing a bookmark for book `a` leaves every other
book `b2`'s persisted bookmark data untouched: the `localStorage`
object entry, the localforage cache entry, and hence the list a
subsequent `getBookmarks(b2)` returns are all unchanged. -/
theorem saveRemoveBookmark_frame (s : StoreState) (a b2 : String)
    (bm : Bookmark) (cfi : String) (h : b2 ≠ a) :
    (saveBookmark s a bm).bookmarksLS b2 = s.bookmarksLS b2 ∧
    (saveBookmark s a bm).bookmarkCache (b2 ++ "_bookmarks") =
      s.bookmarkCache (b2 ++ "_bookmarks") ∧
    readBookmarks (saveBookmark s a bm) b2 = readBookmarks s b2 ∧
    (removeBookmark s a cfi).bookmarksLS b2 = s.bookmarksLS b2 ∧
    (removeBookmark s a cfi).bookmarkCache (b2 ++ "_bookmarks") =
      s.bookmarkCache (b2 ++ "_bookmarks") ∧
    readBookmarks (removeBookmark s a cfi) b2 = readBookmarks s b2 := by
  have hk : (b2 ++ "_bookmarks") ≠ (a ++ "_bookmarks") := append_right_ne h _
  unfold saveBookmark removeBookmark getBookmarksRes
  cases hc : s.bookmarkCache (a ++ "_bookmarks") <;>
    simp [readBookmarks_eq, setKey, hk, h, hc]

/-- C10 witness. -/
theorem saveRemoveBookmark_frame_witness :
    "B" ≠ "A" ∧
    readBookmarks (saveBookmark emptyStore "A" ⟨"c", "h", "t", "ch", 1⟩) "B" =
      readBookmarks emptyStore "B" :=
  ⟨by decide,
   (saveRemoveBookmark_frame emptyStore "A" "B" ⟨"c", "h", "t", "ch", 1⟩ "c"
      (by decide)).2.2.1⟩

/-! ## C1: double bookmark toggle -/

/-- C1 counterexample: the claim "toggling twice returns the persisted
bookmark set to exactly its starting state, and its size is unchanged"
fails when the position is already bookmarked at the start.  Starting
from a store whose list for book `"b"` holds two bookmarks at cfi
`"c"` (sizes also break down without per-cfi uniqueness), the double
toggle removes both and recreates a single fresh bookmark with the new
`createdAt`, so neither the list nor its length is restored. -/
theorem toggleBookmarkTwice_not_roundtrip :
    readBookmarks
        (toggleBookmarkTwice
          { emptyStore with
            bookmarkCache := setKey emptyStore.bookmarkCache ("b" ++ "_bookmarks")
              [⟨"c", "h", "t", "ch", 0⟩, ⟨"c", "h2", "t2", "ch2", 1⟩] }
          "b" ⟨"c", "h", 1, 0⟩ "ch" 5 6) "b" ≠
      readBookmarks
        { emptyStore with
          bookmarkCache := setKey emptyStore.bookmarkCache ("b" ++ "_bookmarks")
            [⟨"c", "h", "t", "ch", 0⟩, ⟨"c", "h2", "t2", "ch2", 1⟩] } "b" ∧
    (readBookmarks
        (toggleBookmarkTwice
          { emptyStore with
            bookmarkCache := setKey emptyStore.bookmarkCache ("b" ++ "_bookmarks")
              [⟨"c", "h", "t", "ch", 0⟩, ⟨"c", "h2", "t2", "ch2", 1⟩] }
          "b" ⟨"c", "h", 1, 0⟩ "ch" 5 6) "b").length ≠
      (readBookmarks
        { emptyStore with
          bookmarkCache := setKey emptyStore.bookmarkCache ("b" ++ "_bookmarks")
            [⟨"c", "h", "t", "ch", 0⟩, ⟨"c", "h2", "t2", "ch2", 1⟩] } "b").length := by
  constructor <;> decide

/-- C1 (amended): provided the starting list has at most one bookmark
per position (the invariant the store's upsert/filter maintain), the
double toggle preserves the bookmark count and the multiset of
bookmarked positions; and when the position is not bookmarked at the
start, the persisted list is restored exactly.  When it is bookmarked,
the pair remove-then-create leaves a bookmark at the same position but
with a freshly synthesized label and `createdAt`, so exact restoration
does not hold in general (see the counterexample). -/
theorem toggleBookmarkTwice_spec (s : StoreState) (bookId : String)
    (loc : BookLocation) (ch : String) (n1 n2 : Nat)
    (hnd : ((readBookmarks s bookId).map Bookmark.cfi).Nodup) :
    (readBookmarks (toggleBookmarkTwice s bookId loc ch n1 n2) bookId).length =
      (readBookmarks s bookId).length ∧
    ((readBookmarks (toggleBookmarkTwice s bookId loc ch n1 n2) bookId).map
        Bookmark.cfi).Perm ((readBookmarks s bookId).map Bookmark.cfi) ∧
    ((readBookmarks s bookId).any (fun b => b.cfi = loc.cfi) = false →
      readBookmarks (toggleBookmarkTwice s bookId loc ch n1 n2) bookId =
        readBookmarks s bookId) := by
  unfold toggleBookmarkTwice
  rw [addBookmark_eq s]
  by_cases hA : (readBookmarks s bookId).any (fun b => b.cfi = loc.cfi) = true
  · -- already bookmarked: remove, then re-create
    rw [if_pos hA, addBookmark_eq, readBookmarks_removeBookmark]
    have hfilter : ((readBookmarks s bookId).filter
        (fun bm => bm.cfi ≠ loc.cfi)).any (fun b => b.cfi = loc.cfi) = false := by
      rw [List.any_eq_false]
      intro x hx
      have := List.of_mem_filter hx
      simp only [decide_not, Bool.not_eq_true', decide_eq_false_iff_not] at this
      simp [this]
    rw [if_neg (by simp [hfilter]), readBookmarks_saveBookmark,
      readBookmarks_removeBookmark, upsert_not_any _ _ hfilter]
    refine ⟨?_, ?_, ?_⟩
    · rw [List.length_append]
      simpa using filter_length_of_any _ _ hnd hA
    · rw [List.map_append]
      simpa [newBookmark] using filter_cfi_perm _ _ hnd hA
    · intro hno
      rw [hno] at hA
      exact absurd hA (by simp)
  · -- not bookmarked: create, then remove
    rw [Bool.not_eq_true] at hA
    rw [if_neg (by simp [hA]), addBookmark_eq, readBookmarks_saveBookmark,
      upsert_not_any _ _ (by simpa [newBookmark] using hA)]
    have hany : ((readBookmarks s bookId) ++ [newBookmark loc ch n1]).any
        (fun b => b.cfi = loc.cfi) = true := by
      simp [newBookmark]
    rw [if_pos hany, readBookmarks_removeBookmark, readBookmarks_saveBookmark,
      upsert_not_any _ _ (by simpa [newBookmark] using hA)]
    rw [List.filter_append, filter_ne_of_not_any _ _ hA]
    simp [newBookmark]

/-- C1 witness: empty starting store, untouched position. -/
theorem toggleBookmarkTwice_spec_witness :
    ((readBookmarks emptyStore "b").map Bookmark.cfi).Nodup ∧
    readBookmarks (toggleBookmarkTwice emptyStore "b" ⟨"c", "h", 1, 0⟩ "ch" 5 6) "b" =
      readBookmarks emptyStore "b" :=
  ⟨by decide,
   (toggleBookmarkTwice_spec emptyStore "b" ⟨"c", "h", 1, 0⟩ "ch" 5 6
      (by decide)).2.2 (by decide)⟩

/-! ## C2: variant partitions -/

theorem readHighlights_eq (s : StoreState) (b : String) (v : Bool) :
    readHighlights s b v =
      (s.highlightCache (variantKey b v ++ "_highlights")).getD
        (((s.highlightsLS (variantKey b v)).getD []).map
          (fun h => { h with percentage := jsOr0 h.percentage })) := by
  unfold readHighlights getHighlightsRes
  cases h : s.highlightCache (variantKey b v ++ "_highlights") <;> simp [h]

theorem applyHighlightMut_frame (s : StoreState) (b : String) (v : Bool)
    (m : HighlightMut) :
    (applyHighlightMut b v s m).highlightsLS (variantKey b (!v)) =
      s.highlightsLS (variantKey b (!v)) ∧
    (applyHighlightMut b v s m).highlightCache (variantKey b (!v) ++ "_highlights") =
      s.highlightCache (variantKey b (!v) ++ "_highlights") := by
  have hk : variantKey b (!v) ≠ variantKey b v := by
    have h2 := variantKey_flip_ne b (!v)
    simpa using h2
  have hk2 : (variantKey b (!v) ++ "_highlights") ≠ (variantKey b v ++ "_highlights") :=
    append_right_ne hk _
  cases m <;>
    · unfold applyHighlightMut saveHighlight removeHighlight getHighlightsRes
      cases hc : s.highlightCache (variantKey b v ++ "_highlights") <;>
        simp [setKey, hk, hk2, hc]

theorem applyHighlightMuts_frame (b : String) (v : Bool) (ms : List HighlightMut)
    (s : StoreState) :
    (applyHighlightMuts b v ms s).highlightsLS (variantKey b (!v)) =
      s.highlightsLS (variantKey b (!v)) ∧
    (applyHighlightMuts b v ms s).highlightCache (variantKey b (!v) ++ "_highlights") =
      s.highlightCache (variantKey b (!v) ++ "_highlights") := by
  induction ms generalizing s with
  | nil => exact ⟨rfl, rfl⟩
  | cons m ms ih =>
      have h1 := applyHighlightMut_frame s b v m
      have h2 := ih (applyHighlightMut b v s m)
      unfold applyHighlightMuts at h2 ⊢
      simp only [List.foldl_cons]
      exact ⟨h2.1.trans h1.1, h2.2.trans h1.2⟩

/-- C2 counterexample: the claim extends variant isolation to
bookmarks, but the bookmark store is keyed by book id only — there is
no per-variant partition.  A bookmark saved while the Translated
variant is active (the bookmark API cannot even be told the variant)
lands in the single per-book list, so after switching back to Original
the Original view's `getBookmarks` no longer returns what it returned
before the detour. -/
theorem bookmarks_not_variant_partitioned :
    readBookmarks (saveBookmark emptyStore "b" ⟨"c", "h", "t", "ch", 1⟩) "b" ≠
      readBookmarks emptyStore "b" := by
  decide

/-- C2 (amended): highlights (and, separately, reading progress) are
partitioned per variant; for highlights, any sequence of save/remove
mutations applied to one variant's partition of a book leaves the other
variant's stored highlight entry — in both tiers — and hence the list
`getHighlights` returns for it, exactly unchanged.  Bookmarks are NOT
partitioned: both variants share one bookmark list per book (see the
counterexample), so only the highlight half of the round-trip
restoration holds. -/
theorem highlights_variant_partition (s : StoreState) (b : String) (v : Bool)
    (ms : List HighlightMut) :
    (applyHighlightMuts b v ms s).highlightsLS (variantKey b (!v)) =
      s.highlightsLS (variantKey b (!v)) ∧
    (applyHighlightMuts b v ms s).highlightCache (variantKey b (!v) ++ "_highlights") =
      s.highlightCache (variantKey b (!v) ++ "_highlights") ∧
    readHighlights (applyHighlightMuts b v ms s) b (!v) = readHighlights s b (!v) := by
  have h := applyHighlightMuts_frame b v ms s
  refine ⟨h.1, h.2, ?_⟩
  rw [readHighlights_eq, readHighlights_eq, h.1, h.2]

/-! ## Rounding and clamping lemmas -/

theorem ratFloor_eq_intFloor (q : ℚ) : q.floor = ⌊q⌋ :=
  (Rat.floor_def' q).trans Rat.floor_def.symm

theorem round2_eq (q : ℚ) : round2 q = (⌊q * 100 + 1 / 2⌋ : ℚ) / 100 := by
  rw [round2, ratFloor_eq_intFloor]

theorem jsMin_eq_min (a b : ℚ) : jsMin a b = min a b := (min_def a b).symm

theorem jsMax_eq_max (a b : ℚ) : jsMax a b = max a b := by
  unfold jsMax
  rcases le_total b a with h | h
  · rw [if_pos h, max_eq_left h]
  · rcases eq_or_lt_of_le h with rfl | h2
    · simp
    · rw [if_neg (not_le.mpr h2), max_eq_right h]

theorem clamp0100_eq (q : ℚ) : clamp0100 q = max 0 (min 100 q) := by
  rw [clamp0100, jsMin_eq_min, jsMax_eq_max]

theorem round2_intCast_div (k : ℤ) : round2 ((k : ℚ) / 100) = (k : ℚ) / 100 := by
  rw [round2_eq]
  have h1 : ((k : ℚ) / 100) * 100 = (k : ℚ) := by
    field_simp
  rw [h1, add_comm, Int.floor_add_int]
  norm_num

theorem round2_form (q : ℚ) : ∃ k : ℤ, round2 q = (k : ℚ) / 100 :=
  ⟨⌊q * 100 + 1 / 2⌋, round2_eq q⟩

theorem clamp0100_form (k : ℤ) : ∃ m : ℤ, clamp0100 ((k : ℚ) / 100) = (m : ℚ) / 100 := by
  rw [clamp0100_eq]
  rcases le_total ((k : ℚ) / 100) 100 with h | h
  · rw [min_eq_right h]
    rcases le_total 0 ((k : ℚ) / 100) with h2 | h2
    · exact ⟨k, max_eq_right h2⟩
    · exact ⟨0, by rw [max_eq_left h2]; norm_num⟩
  · rw [min_eq_left h]
    exact ⟨10000, by rw [max_eq_right (by norm_num : (0 : ℚ) ≤ 100)]; norm_num⟩

theorem round2_clamp0100_round2 (q : ℚ) :
    round2 (clamp0100 (round2 q)) = clamp0100 (round2 q) := by
  obtain ⟨k, hk⟩ := round2_form q
  rw [hk]
  obtain ⟨m, hm⟩ := clamp0100_form k
  rw [hm]
  exact round2_intCast_div m

theorem clamp0100_nonneg (q : ℚ) : 0 ≤ clamp0100 q := by
  rw [clamp0100_eq]; exact le_max_left 0 _

theorem clamp0100_le (q : ℚ) : clamp0100 q ≤ 100 := by
  rw [clamp0100_eq]; exact max_le (by norm_num) (min_le_left 100 q)

theorem clamp0100_eq_self {q : ℚ} (h0 : 0 ≤ q) (h1 : q ≤ 100) : clamp0100 q = q := by
  rw [clamp0100_eq, min_eq_right h1, max_eq_right h0]

/-! ## C3: progress validation -/

/-- C3 counterexample: a record whose percentage (150) is outside
`[0,100]` is not rejected — `saveReadingProgress` only checks that the
cfi is truthy and the percentage is a number, then clamps it.  The
write goes through: the stored entry flips from absent to a record
with percentage 100. -/
theorem saveReadingProgress_not_rejected_out_of_range :
    (saveReadingProgress emptyStore "b" ⟨"x", "h", 150, 3, false, 1⟩ 7).progressLS "b" ≠
      emptyStore.progressLS "b" ∧
    (saveReadingProgress emptyStore "b" ⟨"x", "h", 150, 3, false, 1⟩ 7).progressLS "b" =
      some ⟨"x", "h", 100, 7, false, 1⟩ := by
  have h1 : round2 (150 : ℚ) = 150 := by rw [round2_eq]; norm_num
  have h2 : clamp0100 (150 : ℚ) = 100 := by rw [clamp0100_eq]; norm_num
  have hls : (saveReadingProgress emptyStore "b" ⟨"x", "h", 150, 3, false, 1⟩ 7).progressLS "b" =
      some ⟨"x", "h", 100, 7, false, 1⟩ := by
    unfold saveReadingProgress
    rw [if_neg (by decide)]
    simp [variantKey, setKey, validateProgress, h1, h2]
  exact ⟨by rw [hls]; exact fun h => Option.noConfusion h, hls⟩

/-- C3 (amended): `saveReadingProgress` silently drops the write (the
state is untouched, nothing is thrown) exactly when the position is
empty; a record with a non-empty position is always persisted, with its
percentage first rounded to 2 decimals and then clamped into `[0,100]`
rather than being rejected when out of range, and with `lastRead`
stamped inside the store from the current time instead of the caller's
value. -/
theorem saveReadingProgress_validation (s : StoreState) (b : String)
    (pr : ReadingProgress) (now : Nat) :
    (pr.cfi = "" → saveReadingProgress s b pr now = s) ∧
    (pr.cfi ≠ "" →
      (saveReadingProgress s b pr now).progressLS (variantKey b pr.isTranslated) =
        some (validateProgress pr now) ∧
      (validateProgress pr now).lastRead = now ∧
      (validateProgress pr now).percentage = clamp0100 (round2 pr.percentage) ∧
      0 ≤ (validateProgress pr now).percentage ∧
      (validateProgress pr now).percentage ≤ 100) := by
  constructor
  · intro h
    unfold saveReadingProgress
    rw [if_pos h]
  · intro h
    unfold saveReadingProgress
    rw [if_neg h]
    refine ⟨by simp [setKey], rfl, rfl, clamp0100_nonneg _, clamp0100_le _⟩

/-- C3 witness: a dropped empty-position write and an accepted write. -/
theorem saveReadingProgress_validation_witness :
    saveReadingProgress emptyStore "b" ⟨"", "h", 5, 3, false, 1⟩ 9 = emptyStore ∧
    (saveReadingProgress emptyStore "b" ⟨"x", "h", 5, 3, false, 1⟩ 9).progressLS "b" =
      some (validateProgress ⟨"x", "h", 5, 3, false, 1⟩ 9) :=
  ⟨(saveReadingProgress_validation emptyStore "b" ⟨"", "h", 5, 3, false, 1⟩ 9).1 rfl,
   ((saveReadingProgress_validation emptyStore "b" ⟨"x", "h", 5, 3, false, 1⟩ 9).2
      (by decide)).1⟩

/-! ## C5: last write wins -/

/-- C5: two consecutive valid writes to the same `(bookId, variant)`
key leave exactly the second record under that key, in all three
tiers; its position, href and percentage are the second write's (the
percentage hypothesis says the caller's value is a 2-decimal value in
`[0,100]`, i.e. a well-formed `PercentageOffset`, which validation then
leaves unchanged), and nothing of the first write survives. -/
theorem saveReadingProgress_last_write_wins (s : StoreState) (b : String)
    (pr1 pr2 : ReadingProgress) (n1 n2 : Nat)
    (h1 : pr1.cfi ≠ "") (h2 : pr2.cfi ≠ "")
    (_hv : pr1.isTranslated = pr2.isTranslated)
    (hp0 : 0 ≤ pr2.percentage) (hp1 : pr2.percentage ≤ 100)
    (hp2 : round2 pr2.percentage = pr2.percentage) :
    (saveReadingProgress (saveReadingProgress s b pr1 n1) b pr2 n2).progressLS
        (variantKey b pr2.isTranslated) = some (validateProgress pr2 n2) ∧
    (saveReadingProgress (saveReadingProgress s b pr1 n1) b pr2 n2).progressSS
        (variantKey b pr2.isTranslated) = some (validateProgress pr2 n2) ∧
    (saveReadingProgress (saveReadingProgress s b pr1 n1) b pr2 n2).progressForage
        (variantKey b pr2.isTranslated) = some (validateProgress pr2 n2) ∧
    (validateProgress pr2 n2).cfi = pr2.cfi ∧
    (validateProgress pr2 n2).href = pr2.href ∧
    (validateProgress pr2 n2).percentage = pr2.percentage := by
  unfold saveReadingProgress
  rw [if_neg h1, if_neg h2]
  refine ⟨by simp [setKey], by simp [setKey], by simp [setKey], rfl, rfl, ?_⟩
  show clamp0100 (round2 pr2.percentage) = pr2.percentage
  rw [hp2, clamp0100_eq_self hp0 hp1]

/-- C5 witness. -/
theorem saveReadingProgress_last_write_wins_witness :
    (saveReadingProgress
        (saveReadingProgress emptyStore "b" ⟨"p1", "h1", 10, 3, false, 1⟩ 5)
        "b" ⟨"p2", "h2", 20, 4, false, 2⟩ 6).progressLS "b" =
      some (validateProgress ⟨"p2", "h2", 20, 4, false, 2⟩ 6) ∧
    (validateProgress ⟨"p2", "h2", 20, 4, false, 2⟩ 6).cfi = "p2" ∧
    (validateProgress ⟨"p2", "h2", 20, 4, false, 2⟩ 6).percentage = 20 := by
  have h := saveReadingProgress_last_write_wins emptyStore "b"
    ⟨"p1", "h1", 10, 3, false, 1⟩ ⟨"p2", "h2", 20, 4, false, 2⟩ 5 6
    (by decide) (by decide) rfl (by norm_num) (by norm_num)
    (by rw [round2_eq]; norm_num)
  exact ⟨h.1, h.2.2.2.1, h.2.2.2.2.2⟩

/-! ## C7: percentages leaving the store -/

/-- C7: for every record the store accepts (non-empty position — the
only other gate, `typeof percentage === 'number'`, always holds for an
embedded number), the percentage `saveReadingProgress` persists and the
percentage `getReadingProgress` hands back both lie in `[0,100]` and
are fixed points of 2-decimal rounding. -/
theorem progress_percentage_rounded (s : StoreState) (b : String)
    (pr : ReadingProgress) (now now2 : Nat) (h : pr.cfi ≠ "") :
    ∃ vp, (saveReadingProgress s b pr now).progressLS (variantKey b pr.isTranslated) =
        some vp ∧
      0 ≤ vp.percentage ∧ vp.percentage ≤ 100 ∧ round2 vp.percentage = vp.percentage ∧
      ∃ r, (getReadingProgress (saveReadingProgress s b pr now) b pr.isTranslated
              now2).1 = some r ∧
        r.percentage = vp.percentage ∧ 0 ≤ r.percentage ∧ r.percentage ≤ 100 ∧
        round2 r.percentage = r.percentage := by
  have hpct : (validateOut (validateProgress pr now) now2).percentage =
      clamp0100 (round2 pr.percentage) := round2_clamp0100_round2 pr.percentage
  refine ⟨validateProgress pr now, ?_, clamp0100_nonneg _, clamp0100_le _,
    round2_clamp0100_round2 pr.percentage,
    validateOut (validateProgress pr now) now2, ?_, ?_, ?_, ?_, ?_⟩
  · unfold saveReadingProgress
    rw [if_neg h]
    simp [setKey]
  · unfold getReadingProgress saveReadingProgress
    rw [if_neg h]
    simp [setKey, truthyCfi, validateProgress, h]
  · exact hpct
  · rw [hpct]; exact clamp0100_nonneg _
  · rw [hpct]; exact clamp0100_le _
  · rw [hpct]; exact round2_clamp0100_round2 pr.percentage

/-- C7 witness. -/
theorem progress_percentage_rounded_witness :
    (⟨"x", "h", 5, 3, false, 1⟩ : ReadingProgress).cfi ≠ "" ∧
    ∃ vp, (saveReadingProgress emptyStore "b" ⟨"x", "h", 5, 3, false, 1⟩ 10).progressLS
        (variantKey "b" (⟨"x", "h", 5, 3, false, 1⟩ : ReadingProgress).isTranslated) =
        some vp ∧
      0 ≤ vp.percentage ∧ vp.percentage ≤ 100 ∧ round2 vp.percentage = vp.percentage ∧
      ∃ r, (getReadingProgress (saveReadingProgress emptyStore "b"
              ⟨"x", "h", 5, 3, false, 1⟩ 10) "b"
              (⟨"x", "h", 5, 3, false, 1⟩ : ReadingProgress).isTranslated 20).1 = some r ∧
        r.percentage = vp.percentage ∧ 0 ≤ r.percentage ∧ r.percentage ≤ 100 ∧
        round2 r.percentage = r.percentage :=
  ⟨by decide,
   progress_percentage_rounded emptyStore "b" ⟨"x", "h", 5, 3, false, 1⟩ 10 20 (by decide)⟩

/-! ## C4: deleteBook cascade -/

/-- C4: the claim says deletion removes progress across every storage
tier and every later read returns null, and `deleteBook`'s own comment
says it deletes "all associated data".  The code misses one tier: the
localforage `bookStore` backup (`progress_` keys) written by
`saveReadingProgress` is not in the cascade.  Concretely: save progress
for book `"b"`, delete the book — bookmarks and highlights are indeed
gone and the first progress read is null — but that first read's
fallback copies the surviving backup into `localStorage`, so the very
next `getReadingProgress` returns the deleted record again. -/
theorem deleteBook_progress_backup_survives :
    readBookmarks (deleteBook (saveReadingProgress emptyStore "b"
        ⟨"x", "h", 50, 3, false, 1⟩ 10) "b") "b" = [] ∧
    readHighlights (deleteBook (saveReadingProgress emptyStore "b"
        ⟨"x", "h", 50, 3, false, 1⟩ 10) "b") "b" false = [] ∧
    readHighlights (deleteBook (saveReadingProgress emptyStore "b"
        ⟨"x", "h", 50, 3, false, 1⟩ 10) "b") "b" true = [] ∧
    (getReadingProgress (deleteBook (saveReadingProgress emptyStore "b"
        ⟨"x", "h", 50, 3, false, 1⟩ 10) "b") "b" false 20).1 = none ∧
    (deleteBook (saveReadingProgress emptyStore "b"
        ⟨"x", "h", 50, 3, false, 1⟩ 10) "b").progressForage "b" =
      some (validateProgress ⟨"x", "h", 50, 3, false, 1⟩ 10) ∧
    (getReadingProgress
        (getReadingProgress (deleteBook (saveReadingProgress emptyStore "b"
          ⟨"x", "h", 50, 3, false, 1⟩ 10) "b") "b" false 20).2 "b" false 30).1 =
      some (validateOut (validateProgress ⟨"x", "h", 50, 3, false, 1⟩ 10) 30) ∧
    (getReadingProgress
        (getReadingProgress (deleteBook (saveReadingProgress emptyStore "b"
          ⟨"x", "h", 50, 3, false, 1⟩ 10) "b") "b" false 20).2 "b" false 30).1 ≠
      none := by
  refine ⟨?_, ?_, ?_, ?_, ?_, ?_, ?_⟩ <;>
    simp +decide [readBookmarks_eq, readHighlights_eq, deleteBook,
      saveReadingProgress, getReadingProgress, removeReadingProgress,
      removeAllBookmarksForBook, removeAllHighlightsForBook, variantKey,
      setKey, delKey, truthyCfi, validateProgress, emptyStore]

/-! ## C8: one translation request in flight per key -/

/-- Invariant of the translation manager: the queue (a `Set`) has no
duplicates, and every in-flight request's key is covered by a queue
entry. -/
def TransInv (s : TransState) : Prop :=
  s.queue.Nodup ∧ ∀ k, s.inFlight.count k ≤ s.queue.count k

theorem transStep_inv {s : TransState} (hs : TransInv s) (e : TransEvent) :
    TransInv (transStep s e) := by
  obtain ⟨hnd, hcnt⟩ := hs
  cases e with
  | start k =>
      simp only [transStep]
      by_cases hk : k ∈ s.queue
      · rw [if_pos hk]; exact ⟨hnd, hcnt⟩
      · rw [if_neg hk]
        refine ⟨List.nodup_cons.mpr ⟨hk, hnd⟩, fun j => ?_⟩
        rw [List.count_cons, List.count_cons]
        have := hcnt j
        omega
  | finish k =>
      simp only [transStep]
      refine ⟨hnd.erase k, fun j => ?_⟩
      rw [List.count_erase, List.count_erase]
      have := hcnt j
      omega

theorem transRun_inv (evs : List TransEvent) : TransInv (transRun evs) := by
  unfold transRun
  have h : TransInv TransState.init := ⟨List.nodup_nil, fun k => le_refl _⟩
  generalize TransState.init = s0 at h ⊢
  induction evs generalizing s0 with
  | nil => exact h
  | cons e evs ih => exact ih (transStep s0 e) (transStep_inv h e)

/-- C8: in every state the translation manager can reach from start by
`translateContent` activity, at most one external request is in flight
per content key; and a `translateContent` call whose key is already in
the queue changes nothing (no request is issued, nothing is enqueued)
and immediately resolves to the original, untranslated content. -/
theorem translateContent_single_flight (evs : List TransEvent) (k content : String)
    (hq : k ∈ (transRun evs).queue) :
    (∀ j, (transRun evs).inFlight.count j ≤ 1) ∧
    transStep (transRun evs) (.start k) = transRun evs ∧
    duplicateStartResult (transRun evs) k content = some content := by
  obtain ⟨hnd, hcnt⟩ := transRun_inv evs
  refine ⟨fun j => ?_, ?_, ?_⟩
  · exact le_trans (hcnt j) (List.nodup_iff_count_le_one.mp hnd j)
  · simp only [transStep]
    rw [if_pos hq]
  · unfold duplicateStartResult
    rw [if_pos hq]

/-- C8 witness: after one `start`, the key is queued and a duplicate
call is dropped. -/
theorem translateContent_single_flight_witness :
    "k" ∈ (transRun [.start "k"]).queue ∧
    transStep (transRun [.start "k"]) (.start "k") = transRun [.start "k"] ∧
    duplicateStartResult (transRun [.start "k"]) "k" "c" = some "c" :=
  ⟨by decide,
   (translateContent_single_flight [.start "k"] "k" "c" (by decide)).2.1,
   (translateContent_single_flight [.start "k"] "k" "c" (by decide)).2.2⟩

/-! ## Search lemmas -/

theorem isSpaceCode_toLowerCode (n : Nat) :
    isSpaceCode (toLowerCode n) = isSpaceCode n := by
  unfold toLowerCode isSpaceCode
  split
  · rename_i h
    rw [Bool.eq_iff_iff]
    simp only [Bool.or_eq_true, decide_eq_true_eq]
    omega
  · rfl

theorem head?_dropWhile_false {α : Type} (p : α → Bool) (l : List α) (c : α)
    (h : (l.dropWhile p).head? = some c) : p c = false := by
  induction l with
  | nil => simp at h
  | cons a l ih =>
      by_cases hp : p a
      · rw [List.dropWhile_cons_of_pos hp] at h
        exact ih h
      · rw [List.dropWhile_cons_of_neg hp] at h
        simp only [List.head?_cons, Option.some.injEq] at h
        subst h
        exact Bool.not_eq_true (p a) ▸ hp

theorem head?_trimStr (q : List Nat) (c : Nat)
    (h : (trimStr q).head? = some c) : isSpaceCode c = false := by
  unfold trimStr at h
  rw [List.head?_reverse] at h
  -- the double-trimmed list is a suffix of `(q.dropWhile isSpaceCode).reverse`
  obtain ⟨pfx, hp⟩ := List.dropWhile_suffix
    (l := (q.dropWhile isSpaceCode).reverse) (p := isSpaceCode)
  have hne : (q.dropWhile isSpaceCode).reverse.dropWhile isSpaceCode ≠ [] := by
    intro h0
    rw [h0] at h
    simp at h
  have h2 : (q.dropWhile isSpaceCode).reverse.getLast? = some c := by
    rw [← hp, List.getLast?_append_of_ne_nil pfx hne]
    exact h
  rw [List.getLast?_reverse] at h2
  exact head?_dropWhile_false _ _ _ h2

theorem getLast?_trimStr (q : List Nat) (c : Nat)
    (h : (trimStr q).getLast? = some c) : isSpaceCode c = false := by
  unfold trimStr at h
  rw [List.getLast?_reverse] at h
  exact head?_dropWhile_false _ _ _ h

theorem subseg_map {α β : Type} (f : α → β) {m l : List α} (h : SubSeg m l) :
    SubSeg (m.map f) (l.map f) := by
  obtain ⟨p, s, rfl⟩ := h
  exact ⟨p.map f, s.map f, by simp⟩

theorem subseg_reverse {α : Type} {m l : List α} (h : SubSeg m l) :
    SubSeg m.reverse l.reverse := by
  obtain ⟨p, s, rfl⟩ := h
  exact ⟨s.reverse, p.reverse, by simp⟩

theorem subseg_ne_nil {α : Type} {m l : List α} (h : SubSeg m l) (hm : m ≠ []) :
    l ≠ [] := by
  obtain ⟨p, s, rfl⟩ := h
  intro h0
  simp only [List.append_eq_nil] at h0
  exact hm h0.1.2

theorem subseg_dropWhile {α : Type} (p : α → Bool) {m l : List α} (hm : m ≠ [])
    (hh : ∀ c, m.head? = some c → p c = false) (h : SubSeg m l) :
    SubSeg m (l.dropWhile p) := by
  obtain ⟨pre, suf, rfl⟩ := h
  induction pre with
  | nil =>
      rcases m with _ | ⟨c, m2⟩
      · exact absurd rfl hm
      · have hc : p c = false := hh c rfl
        simp only [List.nil_append, List.cons_append]
        rw [List.dropWhile_cons_of_neg (by simp [hc])]
        exact ⟨[], suf, by simp⟩
  | cons a pre ih =>
      by_cases hp : p a
      · simp only [List.cons_append]
        rw [List.dropWhile_cons_of_pos hp]
        have h2 := ih
        simp only [List.cons_append] at h2 ⊢
        exact h2
      · simp only [List.cons_append]
        rw [List.dropWhile_cons_of_neg hp]
        exact ⟨a :: pre, suf, by simp⟩

theorem subseg_trimStr {m l : List Nat} (hm : m ≠ [])
    (hh : ∀ c, m.head? = some c → isSpaceCode c = false)
    (hl : ∀ c, m.getLast? = some c → isSpaceCode c = false)
    (h : SubSeg m l) : SubSeg m (trimStr l) := by
  have h1 : SubSeg m (l.dropWhile isSpaceCode) := subseg_dropWhile _ hm hh h
  have h2 := subseg_reverse h1
  have hm2 : m.reverse ≠ [] := by simpa using hm
  have hh2 : ∀ c, m.reverse.head? = some c → isSpaceCode c = false := by
    intro c hc
    rw [List.head?_reverse] at hc
    exact hl c hc
  have h3 := subseg_dropWhile isSpaceCode hm2 hh2 h2
  have h4 := subseg_reverse h3
  rw [List.reverse_reverse] at h4
  unfold trimStr
  exact h4

theorem matchAt_bounds {t nq : List Nat} {i : Nat} (hnq : nq ≠ [])
    (hm : matchAt t nq i = true) :
    (t.drop i).take nq.length = nq ∧ i + nq.length ≤ t.length := by
  unfold matchAt at hm
  have he := of_decide_eq_true hm
  refine ⟨he, ?_⟩
  have hlen := congrArg List.length he
  rw [List.length_take, List.length_drop] at hlen
  have hpos : 0 < nq.length := List.length_pos.mpr hnq
  omega

theorem excerpt_contains (t nq : List Nat) (i : Nat)
    (hnq : nq ≠ [])
    (hh : ∀ c, nq.head? = some c → isSpaceCode c = false)
    (hl : ∀ c, nq.getLast? = some c → isSpaceCode c = false)
    (hm : matchAt (lowerStr t) nq i = true) :
    excerptAt t nq.length i ≠ [] ∧ SubSeg nq (lowerStr (excerptAt t nq.length i)) := by
  obtain ⟨he, hle⟩ := matchAt_bounds hnq hm
  have hlt : i + nq.length ≤ t.length := by
    simpa [lowerStr] using hle
  have hmap : lowerStr ((t.drop i).take nq.length) = nq := by
    unfold lowerStr at he ⊢
    rw [List.map_take, List.map_drop]
    exact he
  have hmne : (t.drop i).take nq.length ≠ [] := by
    intro h0
    apply hnq
    rw [← hmap, h0]
    rfl
  have hmh : ∀ c, ((t.drop i).take nq.length).head? = some c → isSpaceCode c = false := by
    intro c hc
    have h1 : nq.head? = some (toLowerCode c) := by
      rw [← hmap]
      unfold lowerStr
      rw [List.head?_map, hc]
      rfl
    have h2 := hh _ h1
    rw [isSpaceCode_toLowerCode] at h2
    exact h2
  have hml : ∀ c, ((t.drop i).take nq.length).getLast? = some c → isSpaceCode c = false := by
    intro c hc
    have h1 : nq.getLast? = some (toLowerCode c) := by
      rw [← hmap]
      unfold lowerStr
      rw [List.getLast?_map, hc]
      rfl
    have h2 := hl _ h1
    rw [isSpaceCode_toLowerCode] at h2
    exact h2
  have hsub : SubSeg ((t.drop i).take nq.length)
      (sliceStr t (i - 100) (min t.length (i + nq.length + 100))) := by
    have he1 : i + nq.length ≤ min t.length (i + nq.length + 100) := by omega
    refine ⟨(t.drop (i - 100)).take (i - (i - 100)),
      ((t.drop i).drop nq.length).take
        (min t.length (i + nq.length + 100) - i - nq.length), ?_⟩
    unfold sliceStr
    have h1 : min t.length (i + nq.length + 100) - (i - 100) =
        (i - (i - 100)) + (nq.length +
          (min t.length (i + nq.length + 100) - i - nq.length)) := by omega
    rw [h1, List.take_add, List.drop_drop]
    have h2 : (i - 100) + (i - (i - 100)) = i := by omega
    rw [h2, List.take_add]
    simp [List.append_assoc]
  have htrim := subseg_trimStr hmne hmh hml hsub
  refine ⟨subseg_ne_nil htrim hmne, ?_⟩
  have hfin := subseg_map toLowerCode htrim
  unfold lowerStr at hmap
  rw [hmap] at hfin
  exact hfin

theorem jsOr0_eq (q : ℚ) : jsOr0 q = q := by
  unfold jsOr0
  split
  · rename_i h
    exact h.symm
  · rfl

theorem length_filterMap_all_some {α β : Type} (f : α → Option β) (L : List α)
    (h : ∀ a ∈ L, (f a).isSome) : (L.filterMap f).length = L.length := by
  induction L with
  | nil => rfl
  | cons a L ih =>
      rw [List.filterMap_cons]
      cases hf : f a with
      | none =>
          have := h a (List.mem_cons_self a L)
          rw [hf] at this
          simp at this
      | some b =>
          have ih2 := ih (fun x hx => h x (List.mem_cons_of_mem a hx))
          simp [ih2]

theorem length_sectionHits (cfiOf : Nat → Nat → String) (pctOf : String → ℚ)
    (nq : List Nat) (si : Nat) (t : List Nat) (hcfi : ∀ i, cfiOf si i ≠ "") :
    (sectionHits cfiOf pctOf nq si t).length =
      (occPositions (lowerStr t) nq).length := by
  unfold sectionHits
  apply length_filterMap_all_some
  intro i _
  simp only
  rw [if_neg (hcfi i)]
  rfl

theorem mem_sectionHits (cfiOf : Nat → Nat → String) (pctOf : String → ℚ)
    (nq : List Nat) (si : Nat) (t : List Nat) (r : SearchHit)
    (hr : r ∈ sectionHits cfiOf pctOf nq si t) :
    ∃ i, matchAt (lowerStr t) nq i = true ∧ r.excerpt = excerptAt t nq.length i := by
  unfold sectionHits at hr
  obtain ⟨i, hi, hf⟩ := List.mem_filterMap.mp hr
  refine ⟨i, ?_, ?_⟩
  · unfold occPositions at hi
    exact (List.mem_filter.mp hi).2
  · by_cases h0 : cfiOf si i = ""
    · rw [if_pos h0] at hf
      exact absurd hf (by simp)
    · rw [if_neg h0] at hf
      simp only [Option.some.injEq] at hf
      rw [← hf]

theorem length_collectHits (cfiOf : Nat → Nat → String) (pctOf : String → ℚ)
    (nq : List Nat) (hcfi : ∀ si i, cfiOf si i ≠ "") (sections : List (List Nat)) :
    ∀ si, (collectHits cfiOf pctOf nq si sections).length =
      (sections.map (fun t => (occPositions (lowerStr t) nq).length)).sum := by
  induction sections with
  | nil => intro si; rfl
  | cons t rest ih =>
      intro si
      unfold collectHits
      rw [List.length_append, length_sectionHits cfiOf pctOf nq si t (hcfi si),
        ih (si + 1)]
      simp

theorem mem_collectHits (cfiOf : Nat → Nat → String) (pctOf : String → ℚ)
    (nq : List Nat) (sections : List (List Nat)) (r : SearchHit) :
    ∀ si, r ∈ collectHits cfiOf pctOf nq si sections →
      ∃ t i, t ∈ sections ∧ matchAt (lowerStr t) nq i = true ∧
        r.excerpt = excerptAt t nq.length i := by
  induction sections with
  | nil => intro si hr; exact absurd hr (by simp [collectHits])
  | cons t rest ih =>
      intro si hr
      unfold collectHits at hr
      rcases List.mem_append.mp hr with hr | hr
      · obtain ⟨i, hi, hex⟩ := mem_sectionHits cfiOf pctOf nq si t r hr
        exact ⟨t, i, List.mem_cons_self t rest, hi, hex⟩
      · obtain ⟨t2, i, ht2, hi, hex⟩ := ih (si + 1) hr
        exact ⟨t2, i, List.mem_cons_of_mem t ht2, hi, hex⟩

/-! ## C6: two occurrences give two ordered results with excerpts -/

/-- C6: if the normalized (trimmed, lowercased) query is non-empty,
occurs at exactly two positions across the sections' lowercased texts,
and the engine resolves every match range to a truthy cfi, then
`handleSearch` stores exactly two results, with the first one's
percentage ≤ the second's (the comparator sort), and each result's
excerpt is non-empty and contains the normalized query up to case
(the excerpt is cut from the original-case text, so containment is
case-insensitive: its lowercasing contains the query). -/
theorem handleSearch_two_occurrences
    (prev : List SearchHit) (cfiOf : Nat → Nat → String) (pctOf : String → ℚ)
    (sections : List (List Nat)) (query : List Nat)
    (hq : trimStr query ≠ [])
    (hcfi : ∀ si i, cfiOf si i ≠ "")
    (hcount : countOccTotal sections (lowerStr (trimStr query)) = 2) :
    ∃ r0 r1, handleSearch prev true cfiOf pctOf sections query = [r0, r1] ∧
      r0.percentage ≤ r1.percentage ∧
      r0.excerpt ≠ [] ∧ SubSeg (lowerStr (trimStr query)) (lowerStr r0.excerpt) ∧
      r1.excerpt ≠ [] ∧ SubSeg (lowerStr (trimStr query)) (lowerStr r1.excerpt) := by
  have hnq : lowerStr (trimStr query) ≠ [] := by
    intro h0
    apply hq
    unfold lowerStr at h0
    exact List.map_eq_nil_iff.mp h0
  have hh : ∀ c, (lowerStr (trimStr query)).head? = some c → isSpaceCode c = false := by
    intro c hc
    unfold lowerStr at hc
    rw [List.head?_map] at hc
    obtain ⟨d, hd, hdc⟩ := Option.map_eq_some'.mp hc
    rw [← hdc, isSpaceCode_toLowerCode]
    exact head?_trimStr query d hd
  have hl : ∀ c, (lowerStr (trimStr query)).getLast? = some c → isSpaceCode c = false := by
    intro c hc
    unfold lowerStr at hc
    rw [List.getLast?_map] at hc
    obtain ⟨d, hd, hdc⟩ := Option.map_eq_some'.mp hc
    rw [← hdc, isSpaceCode_toLowerCode]
    exact getLast?_trimStr query d hd
  have hsearch : handleSearch prev true cfiOf pctOf sections query =
      sortHits (collectHits cfiOf pctOf (lowerStr (trimStr query)) 0 sections) := by
    unfold handleSearch handleSearchCompute
    rw [if_neg hq]
    rfl
  have hlen2 : (sortHits (collectHits cfiOf pctOf (lowerStr (trimStr query))
      0 sections)).length = 2 := by
    unfold sortHits
    rw [List.length_insertionSort, length_collectHits cfiOf pctOf _ hcfi sections 0]
    unfold countOccTotal at hcount
    exact hcount
  obtain ⟨r0, r1, hL2⟩ := List.length_eq_two.mp hlen2
  have hmem : ∀ r ∈ sortHits (collectHits cfiOf pctOf (lowerStr (trimStr query))
      0 sections), r.excerpt ≠ [] ∧
      SubSeg (lowerStr (trimStr query)) (lowerStr r.excerpt) := by
    intro r hr
    unfold sortHits at hr
    have hr2 := (List.mem_insertionSort hitLe).mp hr
    obtain ⟨t, i, _, hi, hex⟩ :=
      mem_collectHits cfiOf pctOf (lowerStr (trimStr query)) sections r 0 hr2
    have hc := excerpt_contains t (lowerStr (trimStr query)) i hnq hh hl hi
    rw [hex]
    exact hc
  have hsorted := List.sorted_insertionSort (r := hitLe)
    (collectHits cfiOf pctOf (lowerStr (trimStr query)) 0 sections)
  have hsorted2 : List.Sorted hitLe [r0, r1] := by
    rw [← hL2]
    exact hsorted
  have hle01 : hitLe r0 r1 :=
    (List.sorted_cons.mp hsorted2).1 r1 (List.mem_cons_self r1 [])
  have hle01q : r0.percentage ≤ r1.percentage := by
    unfold hitLe at hle01
    rw [jsOr0_eq, jsOr0_eq] at hle01
    exact hle01
  have h0 := hmem r0 (by rw [hL2]; exact List.mem_cons_self r0 [r1])
  have h1 := hmem r1 (by rw [hL2]; exact List.mem_cons_of_mem r0 (List.mem_cons_self r1 []))
  exact ⟨r0, r1, by rw [hsearch]; exact hL2, hle01q, h0.1, h0.2, h1.1, h1.2⟩

/-- C6 witness: two sections, "whale" lowercase in one and uppercase in
the other, searched with query "whale" (as UTF-16 code units). -/
theorem handleSearch_two_occurrences_witness :
    trimStr [119, 104, 97, 108, 101] ≠ [] ∧
    countOccTotal [[119, 104, 97, 108, 101], [32, 87, 72, 65, 76, 69, 32]]
      (lowerStr (trimStr [119, 104, 97, 108, 101])) = 2 ∧
    ∃ r0 r1, handleSearch [] true (fun _ _ => "c") (fun _ => 0)
        [[119, 104, 97, 108, 101], [32, 87, 72, 65, 76, 69, 32]]
        [119, 104, 97, 108, 101] = [r0, r1] ∧
      r0.percentage ≤ r1.percentage ∧
      r0.excerpt ≠ [] ∧
      SubSeg (lowerStr (trimStr [119, 104, 97, 108, 101])) (lowerStr r0.excerpt) ∧
      r1.excerpt ≠ [] ∧
      SubSeg (lowerStr (trimStr [119, 104, 97, 108, 101])) (lowerStr r1.excerpt) :=
  ⟨by decide, by decide,
   handleSearch_two_occurrences [] (fun _ _ => "c") (fun _ => 0)
     [[119, 104, 97, 108, 101], [32, 87, 72, 65, 76, 69, 32]]
     [119, 104, 97, 108, 101] (by decide)
     (fun _ _ => by show ("c" : String) ≠ ""; decide) (by decide)⟩

/-! ## C9: guard behavior of handleSearch -/

/-- C9 counterexample: the claim says an empty or whitespace-only query
yields an empty result set, but `handleSearch` returns before
`setSearchResults([])`, so the previous (non-empty) result list
survives untouched. -/
theorem handleSearch_empty_query_keeps_previous :
    handleSearch [⟨"c", [119], 1⟩] true (fun _ _ => "c") (fun _ => 0) [[119]] [32] =
      [⟨"c", [119], 1⟩] ∧
    ([(⟨"c", [119], 1⟩ : SearchHit)] : List SearchHit) ≠ [] := by
  constructor
  · rfl
  · intro h
    exact List.noConfusion h

/-- C9 (amended): an empty or whitespace-only query makes
`handleSearch` return before touching the result list — no error is
raised, and the previous results (empty only if they already were)
remain; a non-empty query whose location-index build fails produces an
empty result list, again without surfacing an error (the function is
total in the embedding: every path returns a list). -/
theorem handleSearch_guards (prev : List SearchHit) (indexOk : Bool)
    (cfiOf : Nat → Nat → String) (pctOf : String → ℚ)
    (sections : List (List Nat)) (query : List Nat) :
    (trimStr query = [] → handleSearch prev indexOk cfiOf pctOf sections query = prev) ∧
    (trimStr query ≠ [] → handleSearch prev false cfiOf pctOf sections query = []) := by
  constructor
  · intro h
    unfold handleSearch
    rw [if_pos h]
  · intro h
    unfold handleSearch
    rw [if_neg h]
    rfl

/-- C9 witness: a whitespace query keeps the previous list; an index
failure empties it. -/
theorem handleSearch_guards_witness :
    handleSearch [⟨"c", [119], 1⟩] true (fun _ _ => "c") (fun _ => 0) [[119]] [32, 32] =
      [⟨"c", [119], 1⟩] ∧
    handleSearch [⟨"c", [119], 1⟩] false (fun _ _ => "c") (fun _ => 0) [[119]] [119] =
      [] :=
  ⟨(handleSearch_guards [⟨"c", [119], 1⟩] true (fun _ _ => "c") (fun _ => 0)
      [[119]] [32, 32]).1 (by decide),
   (handleSearch_guards [⟨"c", [119], 1⟩] false (fun _ _ => "c") (fun _ => 0)
      [[119]] [119]).2 (by decide)⟩

end EpubReader
